import Mathlib

/-!
Verification of the onchain-secrets (OCS) client API and its supporting
protocol, as implemented in src/api.go, src/unnamed/part_001 (the conode
tree builder) and described by the design specification.

The cyclic group of the kyber suite is modelled in discrete-log (exponent)
representation: group elements ("points") are elements of `ZMod p`, the fixed
generator is `1`, point addition is field addition, and multiplying a point by
a scalar is field multiplication.  Fallible operations return `Except`.
-/

namespace OnchainSecrets

/-- Error codes: the onet client error codes used by src/api.go
(ErrorParameter, ErrorProtocol) together with the spec's error taxonomy
(PolicyViolation, LedgerInconsistency, InsufficientShares). -/
inductive ErrCode where
  | parameter
  | protocol
  | policyViolation
  | ledgerInconsistency
  | insufficientShares
  deriving DecidableEq, Repr

/-- A client error as produced by onet.NewClientErrorCode in src/api.go. -/
structure ClientError where
  code : ErrCode
  msg : String
  deriving DecidableEq, Repr

/-- The fixed group generator in exponent representation. -/
def genPoint (p : ℕ) : ZMod p := 1

/-- Modelled from the spec: SignSchnorr (called by src/api.go ReadRequest via
schnorr.Sign and exercised by src/lib/crypto/schnorr_test.go; implementation
not under src/).  Standard Schnorr signing: with nonce `k`, commitment
`R = k·G`, challenge `e = H(R, m)` from the hash oracle `H`, the signature is
`(R, k + e·x)`. -/
def signSchnorr {p : ℕ} {M : Type} (H : ZMod p → M → ZMod p) (x : ZMod p) (m : M)
    (k : ZMod p) : ZMod p × ZMod p :=
  let R := k * genPoint p
  (R, k + H R m * x)

/-- Modelled from the spec: VerifySchnorr (implementation not under src/).
A signature `(R, s)` on `m` under public key `X` verifies when
`s·G = R + H(R, m)·X`. -/
def verifySchnorr {p : ℕ} {M : Type} (H : ZMod p → M → ZMod p) (X : ZMod p) (m : M)
    (sig : ZMod p × ZMod p) : Bool :=
  decide (sig.2 * genPoint p = sig.1 + H sig.1 m * X)

/-- Modelled from the spec: the symmetric cipher used for the payload
(`cothority.Suite.Cipher(key)`, not under src/), as a keystream cipher whose
stream is derived from the key by an abstract derivation `h`. -/
def encryptSym {p : ℕ} (h : List (ZMod p) → ZMod p) (key data : List (ZMod p)) :
    List (ZMod p) :=
  data.map (fun b => b + h key)

/-- Modelled from the spec: symmetric decryption, inverse of `encryptSym`. -/
def decryptSym {p : ℕ} (h : List (ZMod p) → ZMod p) (key ct : List (ZMod p)) :
    List (ZMod p) :=
  ct.map (fun b => b - h key)

/-- The write transaction built by NewWrite (called from src/api.go
WriteRequest): `U`, the threshold-ElGamal encrypted key chunks `Cs`, and the
symmetrically encrypted payload `Data`. -/
structure WriteStruct (p : ℕ) where
  U : ZMod p
  Cs : List (ZMod p)
  Data : List (ZMod p)
  deriving DecidableEq

/-- Modelled from the spec: NewWrite (called by src/api.go WriteRequest,
implementation not under src/).  ElGamal-encrypts each chunk of the symmetric
key under the DKG shared public key `X` with ephemeral randomness `r`:
`U = r·G` and `C_i = r·X + k_i`. -/
def newWrite {p : ℕ} (X : ZMod p) (symKey : List (ZMod p)) (r : ZMod p) :
    WriteStruct p :=
  { U := r * genPoint p, Cs := symKey.map (fun kp => r * X + kp), Data := [] }

/-- Modelled from the spec: DecodeKey (called by src/api.go DecryptKeyRequest,
implementation not under src/).  Removes the re-encryption of `XhatEnc` to the
reader key: `XhatDec = -xc·X`, `Xhat = XhatEnc + XhatDec`, and each key chunk
is `C_i - Xhat`. -/
def decodeKey {p : ℕ} (X : ZMod p) (Cs : List (ZMod p)) (XhatEnc : ZMod p)
    (xc : ZMod p) : List (ZMod p) :=
  let XhatDec := -xc * X
  let Xhat := XhatEnc + XhatDec
  Cs.map (fun C => C + -Xhat)

/-- Modelled from the spec: a node's verifiable partial re-encryption share,
computed from its DKG secret share `si`, the write's `U` and the requester's
public key `Xc`: `u_i = s_i·(U + Xc)`. -/
def partialReencrypt {p : ℕ} (si U Xc : ZMod p) : ZMod p :=
  si * (U + Xc)

/-- Modelled from the spec: the Lagrange coefficient at node `xi` for
evaluation at `0`, over the node set `S`. -/
def lagCoeff {p : ℕ} (S : Finset (ZMod p)) (xi : ZMod p) : ZMod p :=
  ∏ xj ∈ S.erase xi, xj * (xj - xi)⁻¹

/-- Modelled from the spec: threshold reconstruction
(Lagrange-interpolation-style combination) of the shares `sh` held by the
nodes in `S`. -/
def recoverCommit {p : ℕ} (S : Finset (ZMod p)) (sh : ZMod p → ZMod p) : ZMod p :=
  ∑ xi ∈ S, lagCoeff S xi * sh xi

/-- Horner evaluation of the DKG sharing polynomial given by its coefficient
list (constant coefficient first). -/
def evalPoly {p : ℕ} (coeffs : List (ZMod p)) (z : ZMod p) : ZMod p :=
  coeffs.foldr (fun c acc => c + z * acc) 0

/-- The DKG shared secret: the sharing polynomial evaluated at `0`. -/
def sharedSecret {p : ℕ} (coeffs : List (ZMod p)) : ZMod p :=
  evalPoly coeffs 0

/-- Modelled from the spec: a Darc access-control policy.  Identities are
public keys in exponent representation; `rules` maps an action name to the
identities permitted to perform it. -/
structure Darc (p : ℕ) where
  baseID : ℕ
  version : ℕ
  rules : List (String × List (ZMod p))
  deriving DecidableEq

/-- The identities a darc permits for a given action. -/
def ruleIdentities {p : ℕ} (d : Darc p) (action : String) : List (ZMod p) :=
  (((d.rules.find? (fun rule => rule.1 == action)).map Prod.snd)).getD []

/-- Modelled from the spec: Authorize — pure evaluation of the rule for
`action` against an identity. -/
def authorize {p : ℕ} (d : Darc p) (action : String) (ident : ZMod p) : Bool :=
  decide (ident ∈ ruleIdentities d action)

/-- Modelled from the spec: Evolve — darc evolution validation (the server
side of src/api.go EditAccount, not under src/).  The proposal is accepted
exactly when it keeps the BaseID, increments the version by one, and carries a
valid signature from an identity permitted by the current darc's evolve
rule; otherwise it fails with PolicyViolation. -/
def evolveDarc {p : ℕ} (current proposed : Darc p) (signer : ZMod p)
    (sigValid : Bool) : Except ClientError (Darc p) :=
  if proposed.baseID = current.baseID ∧ proposed.version = current.version + 1 ∧
      sigValid = true ∧ authorize current "evolve" signer = true then
    .ok proposed
  else
    .error ⟨.policyViolation, "darc evolution refused"⟩

/-- Contents of a ledger block: genesis, a write transaction, or a read
record (referenced write, requester public key, requester signature). -/
inductive BlockContent (p : ℕ) where
  | genesis (admin : Darc p)
  | write (w : WriteStruct p) (readers : Darc p)
  | read (dataID : ℕ) (Xc : ZMod p) (sig : ZMod p × ZMod p)
  deriving DecidableEq

/-- A ledger block, content-addressed by `id` (block hashes are modelled as
natural numbers; fresh blocks use the current ledger length). -/
structure Block (p : ℕ) where
  id : ℕ
  content : BlockContent p
  deriving DecidableEq

/-- Fetch a block by id. -/
def findBlock {p : ℕ} (ledger : List (Block p)) (bid : ℕ) : Option (Block p) :=
  ledger.find? (fun b => b.id == bid)

/-- Modelled from the spec: the server side of a write request — append the
write transaction as a new block. -/
def srvWrite {p : ℕ} (ledger : List (Block p)) (w : WriteStruct p)
    (readers : Darc p) : ℕ × List (Block p) :=
  (ledger.length, ledger ++ [⟨ledger.length, .write w readers⟩])

/-- Modelled from the spec: the server side of a read request (not under
src/).  The referenced block must be a write block; the signature over the
write id must verify under the requester key `Xc`; `Xc` must be authorized by
the policy's read rule.  Only then is a read block appended; on failure the
ledger is returned unchanged. -/
def srvRead {p : ℕ} (H : ZMod p → ℕ → ZMod p) (ledger : List (Block p))
    (policy : Darc p) (dataID : ℕ) (Xc : ZMod p) (sig : ZMod p × ZMod p) :
    Except ClientError ℕ × List (Block p) :=
  match findBlock ledger dataID with
  | some b =>
    match b.content with
    | .write _ _ =>
      if verifySchnorr H Xc dataID sig = true ∧ authorize policy "read" Xc = true then
        (.ok ledger.length, ledger ++ [⟨ledger.length, .read dataID Xc sig⟩])
      else
        (.error ⟨.policyViolation, "read not authorized"⟩, ledger)
    | _ => (.error ⟨.ledgerInconsistency, "dataID is not a write block"⟩, ledger)
  | none => (.error ⟨.ledgerInconsistency, "no such block"⟩, ledger)

/-- The reply of a DecryptKey request, as consumed by src/api.go
DecryptKeyRequest: the shared public key `X`, the encrypted key chunks `Cs`
and the already-reconstructed re-encryption `XhatEnc`. -/
structure DecryptKeyReply (p : ℕ) where
  X : ZMod p
  Cs : List (ZMod p)
  XhatEnc : ZMod p
  deriving DecidableEq

/-- Modelled from the spec: the server side of DecryptKey (not under src/).
The read block is fetched by `readID`, the write block it references is
fetched, each node in `S` computes its partial re-encryption share from its
DKG share, and the shares are combined by threshold reconstruction into
`XhatEnc`. -/
def srvDecrypt {p : ℕ} (coeffs : List (ZMod p)) (S : Finset (ZMod p))
    (ledger : List (Block p)) (readID : ℕ) :
    Except ClientError (DecryptKeyReply p) :=
  match findBlock ledger readID with
  | some rb =>
    match rb.content with
    | .read dataID Xc _ =>
      match findBlock ledger dataID with
      | some wb =>
        match wb.content with
        | .write w _ =>
          let XhatEnc :=
            recoverCommit S (fun xi => partialReencrypt (evalPoly coeffs xi) w.U Xc)
          .ok ⟨sharedSecret coeffs * genPoint p, w.Cs, XhatEnc⟩
        | _ => .error ⟨.ledgerInconsistency, "dataID is not a write block"⟩
      | none => .error ⟨.ledgerInconsistency, "missing write block"⟩
    | _ => .error ⟨.ledgerInconsistency, "readID is not a read block"⟩
  | none => .error ⟨.ledgerInconsistency, "no such read block"⟩

/-- An audit record of one read request, as returned by GetReadRequests. -/
structure ReadDoc (p : ℕ) where
  readID : ℕ
  dataID : ℕ
  reader : ZMod p
  deriving DecidableEq

/-- The audit record of a block, when the block is a read block. -/
def readDocOf {p : ℕ} (b : Block p) : Option (ReadDoc p) :=
  match b.content with
  | .read dataID Xc _ => some ⟨b.id, dataID, Xc⟩
  | _ => none

/-- All read records referencing the write block `wid`. -/
def readsReferencing {p : ℕ} (ledger : List (Block p)) (wid : ℕ) :
    List (ReadDoc p) :=
  ledger.filterMap (fun b =>
    match readDocOf b with
    | some doc => if doc.dataID == wid then some doc else none
    | none => none)

/-- Modelled from the spec: the server side of GetReadRequests (not under
src/).  With `count = 0`, `start` must point to a write block and all read
records referencing it are returned; otherwise at most `count` read records
are returned, searching from the block `start`. -/
def srvGetReads {p : ℕ} (ledger : List (Block p)) (start count : ℕ) :
    Except ClientError (List (ReadDoc p)) :=
  if count = 0 then
    match findBlock ledger start with
    | some b =>
      match b.content with
      | .write _ _ => .ok (readsReferencing ledger start)
      | _ => .error ⟨.parameter, "start does not point to a write block"⟩
    | none => .error ⟨.ledgerInconsistency, "no such block"⟩
  else
    .ok (((ledger.dropWhile (fun b => b.id != start)).filterMap readDocOf).take count)

/-- A message on the wire, sent or received by the client operations of
src/api.go.  Each constructor lists exactly the fields the corresponding Go
request or reply carries. -/
inductive WireMsg (p : ℕ) where
  | sharedPublicRequest (genesis : ℕ)
  | sharedPublicReply (X : ZMod p)
  | writeRequest (genesis : ℕ) (w : WriteStruct p) (readers : Darc p)
      (sig : ZMod p × ZMod p)
  | writeReply (blockID : ℕ)
  | readRequest (genesis : ℕ) (dataID : ℕ) (Xc : ZMod p) (sig : ZMod p × ZMod p)
  | readReply (blockID : ℕ)
  | decryptKeyRequest (readID : ℕ)
  | decryptKeyReply (X : ZMod p) (Cs : List (ZMod p)) (XhatEnc : ZMod p)
  deriving DecidableEq

/-- All group-element values appearing in a darc (the identities of its
rules). -/
def darcScalars {p : ℕ} (d : Darc p) : List (ZMod p) :=
  (d.rules.map Prod.snd).flatten

/-- All group-element values a wire message carries. -/
def msgScalars {p : ℕ} : WireMsg p → List (ZMod p)
  | .sharedPublicRequest _ => []
  | .sharedPublicReply X => [X]
  | .writeRequest _ w readers sig =>
      w.U :: (w.Cs ++ w.Data ++ darcScalars readers ++ [sig.1, sig.2])
  | .writeReply _ => []
  | .readRequest _ _ Xc sig => [Xc, sig.1, sig.2]
  | .readReply _ => []
  | .decryptKeyRequest _ => []
  | .decryptKeyReply X Cs XhatEnc => X :: (Cs ++ [XhatEnc])

/-- The client write path of src/api.go WriteRequest.  If the payload is
bigger than 1e7 bytes it fails with ErrorParameter before anything is sent.
Otherwise it requests the shared public key, encrypts the symmetric key with
`newWrite` (ephemeral randomness `r`), and submits the write request.  The
network is abstracted by the two oracle answers `sharedAns` and `writeAns`;
the second component of the result is the full wire trace (messages sent and
received), in order. -/
def writeRequestClient {p : ℕ} (genesis : ℕ) (encData symKey : List (ZMod p))
    (sig : ZMod p × ZMod p) (acl : Darc p) (r : ZMod p)
    (sharedAns : Except ClientError (ZMod p)) (writeAns : Except ClientError ℕ) :
    Except ClientError ℕ × List (WireMsg p) :=
  if encData.length > 10000000 then
    (.error ⟨.parameter, "Cannot store data bigger than 10MB"⟩, [])
  else
    match sharedAns with
    | .error e => (.error e, [.sharedPublicRequest genesis])
    | .ok X =>
      let write := { newWrite X symKey r with Data := encData }
      match writeAns with
      | .error e =>
          (.error e,
           [.sharedPublicRequest genesis, .sharedPublicReply X,
            .writeRequest genesis write acl sig])
      | .ok sb =>
          (.ok sb,
           [.sharedPublicRequest genesis, .sharedPublicReply X,
            .writeRequest genesis write acl sig, .writeReply sb])

/-- The client read path of src/api.go ReadRequest: sign the write block id
`dataID` with the reader's private key (Schnorr, nonce `k`) and submit the
read request.  The requester's identity travels with the signature. -/
def readRequestClient {p : ℕ} (H : ZMod p → ℕ → ZMod p) (genesis dataID : ℕ)
    (reader k : ZMod p) (readAns : Except ClientError ℕ) :
    Except ClientError ℕ × List (WireMsg p) :=
  let sig := signSchnorr H reader dataID k
  let Xc := reader * genPoint p
  match readAns with
  | .error e => (.error e, [.readRequest genesis dataID Xc sig])
  | .ok sb => (.ok sb, [.readRequest genesis dataID Xc sig, .readReply sb])

/-- The client decrypt path of src/api.go DecryptKeyRequest: the request
carries only the read block id; the symmetric key is recovered locally from
the reply by `decodeKey` using the reader's private key. -/
def decryptKeyRequestClient {p : ℕ} (readID : ℕ) (reader : ZMod p)
    (decAns : Except ClientError (DecryptKeyReply p)) :
    Except ClientError (List (ZMod p)) × List (WireMsg p) :=
  match decAns with
  | .error e => (.error e, [.decryptKeyRequest readID])
  | .ok reply =>
      (.ok (decodeKey reply.X reply.Cs reply.XhatEnc reader),
       [.decryptKeyRequest readID,
        .decryptKeyReply reply.X reply.Cs reply.XhatEnc])

/-- A full write / read / decrypt round trip: the client operations of
src/api.go composed with the (spec-modelled) honest server handlers, starting
from a ledger holding only the genesis block of `policy`.  `coeffs` is the
DKG sharing polynomial, `S` the set of nodes answering the decrypt request,
`r` the write's ephemeral randomness, `kNonce` the read signature nonce and
`reader` the reader's private key.  Returns the decrypted symmetric key and
the full wire trace. -/
def runRoundTrip {p : ℕ} (H : ZMod p → ℕ → ZMod p) (h : List (ZMod p) → ZMod p)
    (coeffs : List (ZMod p)) (S : Finset (ZMod p)) (policy : Darc p)
    (adminSig : ZMod p × ZMod p) (symKey data : List (ZMod p))
    (r kNonce reader : ZMod p) :
    Except ClientError (List (ZMod p)) × List (WireMsg p) :=
  let ledger0 : List (Block p) := [⟨0, .genesis policy⟩]
  let X := sharedSecret coeffs * genPoint p
  let encData := encryptSym h symKey data
  let w := { newWrite X symKey r with Data := encData }
  let (wid, ledger1) := srvWrite ledger0 w policy
  match writeRequestClient 0 encData symKey adminSig policy r (.ok X) (.ok wid) with
  | (.error e, tr) => (.error e, tr)
  | (.ok wid2, trace1) =>
    let Xc := reader * genPoint p
    let rsig := signSchnorr H reader wid2 kNonce
    let (rres, ledger2) := srvRead H ledger1 policy wid2 Xc rsig
    match readRequestClient H 0 wid2 reader kNonce rres with
    | (.error e, tr) => (.error e, trace1 ++ tr)
    | (.ok rid, trace2) =>
      let (res, tr) := decryptKeyRequestClient rid reader (srvDecrypt coeffs S ledger2 rid)
      (res, trace1 ++ (trace2 ++ tr))

/-- The sharing polynomial as a Mathlib polynomial; proof-side mirror of
`evalPoly`. -/
noncomputable def toPoly {p : ℕ} : List (ZMod p) → Polynomial (ZMod p)
  | [] => 0
  | c :: cs => Polynomial.C c + Polynomial.X * toPoly cs

lemma evalPoly_cons {p : ℕ} (c : ZMod p) (cs : List (ZMod p)) (z : ZMod p) :
    evalPoly (c :: cs) z = c + z * evalPoly cs z := rfl

lemma evalPoly_eq_eval {p : ℕ} (coeffs : List (ZMod p)) (z : ZMod p) :
    evalPoly coeffs z = (toPoly coeffs).eval z := by
  induction coeffs with
  | nil => simp [evalPoly, toPoly]
  | cons c cs ih => rw [evalPoly_cons, ih]; simp [toPoly]

lemma coeff_toPoly_eq_zero {p : ℕ} (coeffs : List (ZMod p)) (m : ℕ)
    (hm : coeffs.length ≤ m) : (toPoly coeffs).coeff m = 0 := by
  induction coeffs generalizing m with
  | nil => simp [toPoly]
  | cons c cs ih =>
    match m with
    | 0 => exact absurd hm (by simp)
    | Nat.succ m =>
      have h1 : cs.length ≤ m := by simpa [Nat.succ_le_succ_iff] using hm
      simp [toPoly, Polynomial.coeff_add, Polynomial.coeff_C,
        Polynomial.coeff_X_mul, ih m h1]

lemma degree_toPoly_lt {p : ℕ} (coeffs : List (ZMod p)) :
    (toPoly coeffs).degree < (coeffs.length : WithBot ℕ) :=
  (Polynomial.degree_lt_iff_coeff_zero _ _).mpr
    (fun m hm => coeff_toPoly_eq_zero coeffs m hm)

/-- The computable threshold reconstruction agrees with evaluating the
Lagrange interpolation polynomial at `0`: reconstructing from the shares of `f`
held by any node set whose size exceeds the degree of `f` returns `f 0`. -/
lemma recoverCommit_eq_eval_zero {p : ℕ} [Fact p.Prime] (S : Finset (ZMod p))
    (f : Polynomial (ZMod p)) (hd : f.degree < (S.card : WithBot ℕ)) :
    recoverCommit S (fun xi => f.eval xi) = f.eval 0 := by
  have hinj : Set.InjOn id (S : Set (ZMod p)) := Set.injOn_id _
  have h := Lagrange.eq_interpolate hinj hd
  have key : recoverCommit S (fun xi => f.eval xi) =
      (Lagrange.interpolate S id fun i => f.eval (id i)).eval 0 := by
    rw [Lagrange.interpolate_apply, Polynomial.eval_finset_sum]
    unfold recoverCommit lagCoeff
    refine Finset.sum_congr rfl (fun i hi => ?_)
    rw [Polynomial.eval_mul, Polynomial.eval_C, Lagrange.basis,
      Polynomial.eval_prod, mul_comm]
    congr 1
    refine Finset.prod_congr rfl (fun j hj => ?_)
    simp only [Lagrange.basisDivisor, Polynomial.eval_mul, Polynomial.eval_C,
      Polynomial.eval_sub, Polynomial.eval_X, id]
    rw [show (i : ZMod p) - j = -(j - i) by ring, inv_neg]
    ring
  rw [key, ← h]

lemma recoverCommit_evalPoly {p : ℕ} [Fact p.Prime] (S : Finset (ZMod p))
    (coeffs : List (ZMod p)) (hd : coeffs.length ≤ S.card) :
    recoverCommit S (fun xi => evalPoly coeffs xi) = sharedSecret coeffs := by
  have h1 : (toPoly coeffs).degree < (S.card : WithBot ℕ) :=
    lt_of_lt_of_le (degree_toPoly_lt coeffs) (Nat.cast_le.mpr hd)
  have h2 := recoverCommit_eq_eval_zero S (toPoly coeffs) h1
  simpa [← evalPoly_eq_eval, sharedSecret] using h2

lemma recoverCommit_evalPoly_mul {p : ℕ} [Fact p.Prime] (S : Finset (ZMod p))
    (coeffs : List (ZMod p)) (a : ZMod p) (hd : coeffs.length ≤ S.card) :
    recoverCommit S (fun xi => evalPoly coeffs xi * a) = sharedSecret coeffs * a := by
  have h1 : (toPoly coeffs * Polynomial.C a).degree < (S.card : WithBot ℕ) := by
    calc (toPoly coeffs * Polynomial.C a).degree
        ≤ (toPoly coeffs).degree + (Polynomial.C a).degree :=
          Polynomial.degree_mul_le _ _
      _ ≤ (toPoly coeffs).degree + 0 := add_le_add_left Polynomial.degree_C_le _
      _ = (toPoly coeffs).degree := add_zero _
      _ < (coeffs.length : WithBot ℕ) := degree_toPoly_lt coeffs
      _ ≤ (S.card : WithBot ℕ) := Nat.cast_le.mpr hd
  have h2 := recoverCommit_eq_eval_zero S (toPoly coeffs * Polynomial.C a) h1
  have h3 : (fun xi => (toPoly coeffs * Polynomial.C a).eval xi) =
      fun xi => evalPoly coeffs xi * a := by
    funext xi
    rw [Polynomial.eval_mul, Polynomial.eval_C, evalPoly_eq_eval]
  rw [h3] at h2
  rw [h2, Polynomial.eval_mul, Polynomial.eval_C, ← evalPoly_eq_eval]
  rfl

lemma verifySchnorr_signSchnorr {p : ℕ} {M : Type} (H : ZMod p → M → ZMod p)
    (x : ZMod p) (m : M) (k : ZMod p) :
    verifySchnorr H (x * genPoint p) m (signSchnorr H x m k) = true := by
  simp only [verifySchnorr, signSchnorr, genPoint, mul_one, decide_eq_true_eq]

/-- Claim C9: for every key pair (secret `x`, public `x·G`) of the suite and
every message `m`, a Schnorr signature produced by `signSchnorr` with the
secret key over `m` is accepted by `verifySchnorr` with the corresponding
public key over the same message, for every hash oracle `H` and nonce `k`. -/
theorem schnorr_sign_verify {p : ℕ} {M : Type} (H : ZMod p → M → ZMod p)
    (x : ZMod p) (m : M) (k : ZMod p) :
    verifySchnorr H (x * genPoint p) m (signSchnorr H x m k) = true :=
  verifySchnorr_signSchnorr H x m k

/-- Claim C2: for a threshold scheme with parameters `(t, n)`, any two subsets
of exactly `t` valid shares of the sharing polynomial `coeffs` (degree below
`t`), combined by the threshold reconstruction, yield the identical
reconstructed value. -/
theorem threshold_reconstruction_unique {p : ℕ} [Fact p.Prime] (t : ℕ)
    (coeffs : List (ZMod p)) (S₁ S₂ : Finset (ZMod p))
    (h1 : S₁.card = t) (h2 : S₂.card = t) (hd : coeffs.length ≤ t) :
    recoverCommit S₁ (fun xi => evalPoly coeffs xi) =
      recoverCommit S₂ (fun xi => evalPoly coeffs xi) := by
  rw [recoverCommit_evalPoly S₁ coeffs (hd.trans (le_of_eq h1.symm)),
    recoverCommit_evalPoly S₂ coeffs (hd.trans (le_of_eq h2.symm))]

/-- Witness for C2: in `ZMod 11` with `t = 2` and sharing polynomial
`4 + 7·X`, the node subsets `{1, 2}` and `{3, 5}` reconstruct the same
value. -/
theorem threshold_reconstruction_unique_witness :
    ({1, 2} : Finset (ZMod 11)).card = 2 ∧ ({3, 5} : Finset (ZMod 11)).card = 2 ∧
    ([4, 7] : List (ZMod 11)).length ≤ 2 ∧
    recoverCommit ({1, 2} : Finset (ZMod 11)) (fun xi => evalPoly [4, 7] xi) =
      recoverCommit ({3, 5} : Finset (ZMod 11)) (fun xi => evalPoly [4, 7] xi) := by
  haveI : Fact (Nat.Prime 11) := ⟨by norm_num⟩
  exact ⟨by decide, by decide, by decide,
    threshold_reconstruction_unique 2 [4, 7] {1, 2} {3, 5} (by decide) (by decide)
      (by decide)⟩

/-- Claim C3: a write whose encrypted payload exceeds 10,000,000 bytes fails
with ErrorParameter and an empty wire trace (no network interaction); a
payload of exactly 10,000,000 bytes passes the size check, so the first
network request is sent. -/
theorem writeRequest_payload_cap {p : ℕ} (genesis : ℕ)
    (encData symKey : List (ZMod p)) (sig : ZMod p × ZMod p) (acl : Darc p)
    (r : ZMod p) (sharedAns : Except ClientError (ZMod p))
    (writeAns : Except ClientError ℕ) :
    (encData.length > 10000000 →
      writeRequestClient genesis encData symKey sig acl r sharedAns writeAns =
        (.error ⟨.parameter, "Cannot store data bigger than 10MB"⟩, [])) ∧
    (encData.length = 10000000 →
      (writeRequestClient genesis encData symKey sig acl r sharedAns writeAns).2.head? =
        some (.sharedPublicRequest genesis)) := by
  constructor
  · intro hbig
    unfold writeRequestClient
    rw [if_pos hbig]
  · intro hlen
    have hn : ¬ encData.length > 10000000 := by omega
    unfold writeRequestClient
    rw [if_neg hn]
    cases sharedAns with
    | error e => rfl
    | ok X =>
      cases writeAns with
      | error e => rfl
      | ok sb => rfl

/-- Witness for C3: a 10,000,001-element payload is rejected with
ErrorParameter and nothing sent; a 10,000,000-element payload leads to the
shared-key request being sent. -/
theorem writeRequest_payload_cap_witness :
    (List.replicate 10000001 (0 : ZMod 11)).length > 10000000 ∧
    writeRequestClient 0 (List.replicate 10000001 (0 : ZMod 11)) [] (0, 0)
        ⟨0, 0, []⟩ 0 (.ok 1) (.ok 1) =
      (.error ⟨.parameter, "Cannot store data bigger than 10MB"⟩, []) ∧
    (List.replicate 10000000 (0 : ZMod 11)).length = 10000000 ∧
    (writeRequestClient 0 (List.replicate 10000000 (0 : ZMod 11)) [] (0, 0)
        ⟨0, 0, []⟩ 0 (.ok 1) (.ok 1)).2.head? = some (.sharedPublicRequest 0) := by
  have h1 : (List.replicate 10000001 (0 : ZMod 11)).length > 10000000 := by
    rw [List.length_replicate]; omega
  have h2 : (List.replicate 10000000 (0 : ZMod 11)).length = 10000000 := by
    rw [List.length_replicate]
  exact ⟨h1,
    (writeRequest_payload_cap 0 _ [] (0, 0) ⟨0, 0, []⟩ 0 (.ok 1) (.ok 1)).1 h1,
    h2,
    (writeRequest_payload_cap 0 _ [] (0, 0) ⟨0, 0, []⟩ 0 (.ok 1) (.ok 1)).2 h2⟩

/-- Claim C4: darc evolution succeeds exactly when the proposal keeps the
BaseID, has version exactly one more than the current version, and carries a
valid signature from an identity permitted by the current evolve rule; in
particular a proposal jumping from version 0 to version 2 is rejected with
PolicyViolation. -/
theorem evolveDarc_version_gating {p : ℕ} (current proposed : Darc p)
    (signer : ZMod p) (sigValid : Bool) :
    (∀ d : Darc p, evolveDarc current proposed signer sigValid = .ok d ↔
        (proposed.baseID = current.baseID ∧
         proposed.version = current.version + 1 ∧ sigValid = true ∧
         authorize current "evolve" signer = true ∧ d = proposed)) ∧
    (current.version = 0 → proposed.version = 2 →
      evolveDarc current proposed signer sigValid =
        .error ⟨.policyViolation, "darc evolution refused"⟩) := by
  constructor
  · intro d
    unfold evolveDarc
    split_ifs with hcond
    · constructor
      · intro hok
        have hd : proposed = d := by
          simpa using hok
        exact ⟨hcond.1, hcond.2.1, hcond.2.2.1, hcond.2.2.2, hd.symm⟩
      · rintro ⟨-, -, -, -, rfl⟩
        rfl
    · constructor
      · intro hok
        simp at hok
      · rintro ⟨ha, hb, hc, hd2, -⟩
        exact absurd ⟨ha, hb, hc, hd2⟩ hcond
  · intro h0 h2
    unfold evolveDarc
    rw [if_neg]
    rintro ⟨-, hv, -, -⟩
    rw [h2, h0] at hv
    exact absurd hv (by norm_num)

/-- Witness for C4: a valid evolution v0 → v1 succeeds; the jump v0 → v2 is
rejected with PolicyViolation. -/
theorem evolveDarc_version_gating_witness :
    evolveDarc (⟨7, 0, [("evolve", [2])]⟩ : Darc 11) ⟨7, 1, []⟩ 2 true =
      .ok ⟨7, 1, []⟩ ∧
    (⟨7, 0, [("evolve", [2])]⟩ : Darc 11).version = 0 ∧
    (⟨7, 2, []⟩ : Darc 11).version = 2 ∧
    evolveDarc (⟨7, 0, [("evolve", [2])]⟩ : Darc 11) ⟨7, 2, []⟩ 2 true =
      .error ⟨.policyViolation, "darc evolution refused"⟩ := by
  refine ⟨?_, rfl, rfl, ?_⟩
  · exact ((evolveDarc_version_gating ⟨7, 0, [("evolve", [2])]⟩ ⟨7, 1, []⟩ 2 true).1
      ⟨7, 1, []⟩).mpr ⟨rfl, rfl, rfl, by decide, rfl⟩
  · exact (evolveDarc_version_gating ⟨7, 0, [("evolve", [2])]⟩ ⟨7, 2, []⟩ 2 true).2
      rfl rfl

/-- Claim C5: a read request on an existing write block whose signer identity
is not authorized by the policy's read rule fails with PolicyViolation and
leaves the ledger unchanged; a read block is appended only when the signature
verifies and the identity is authorized. -/
lemma srvRead_eq_of_write {p : ℕ} (H : ZMod p → ℕ → ZMod p)
    (ledger : List (Block p)) (policy : Darc p) (dataID : ℕ) (Xc : ZMod p)
    (sig : ZMod p × ZMod p) (bid : ℕ) (w : WriteStruct p) (rdrs : Darc p)
    (hfind : findBlock ledger dataID = some ⟨bid, .write w rdrs⟩) :
    srvRead H ledger policy dataID Xc sig =
      if verifySchnorr H Xc dataID sig = true ∧ authorize policy "read" Xc = true then
        (.ok ledger.length, ledger ++ [⟨ledger.length, .read dataID Xc sig⟩])
      else (.error ⟨.policyViolation, "read not authorized"⟩, ledger) := by
  unfold srvRead
  rw [hfind]

theorem srvRead_authorization_gating {p : ℕ} (H : ZMod p → ℕ → ZMod p)
    (ledger : List (Block p)) (policy : Darc p) (dataID : ℕ) (Xc : ZMod p)
    (sig : ZMod p × ZMod p) (bid : ℕ) (w : WriteStruct p) (rdrs : Darc p)
    (hfind : findBlock ledger dataID = some ⟨bid, .write w rdrs⟩) :
    (authorize policy "read" Xc = false →
      srvRead H ledger policy dataID Xc sig =
        (.error ⟨.policyViolation, "read not authorized"⟩, ledger)) ∧
    (∀ rid ledger2, srvRead H ledger policy dataID Xc sig = (.ok rid, ledger2) →
      verifySchnorr H Xc dataID sig = true ∧ authorize policy "read" Xc = true ∧
      ledger2 = ledger ++ [⟨ledger.length, .read dataID Xc sig⟩]) := by
  rw [srvRead_eq_of_write H ledger policy dataID Xc sig bid w rdrs hfind]
  constructor
  · intro hauth
    rw [if_neg]
    rintro ⟨-, h2⟩
    rw [hauth] at h2
    exact absurd h2 (by simp)
  · intro rid ledger2 hok
    split_ifs at hok with hcond
    · have h1 : ledger ++ [⟨ledger.length, .read dataID Xc sig⟩] = ledger2 :=
        congrArg Prod.snd hok
      exact ⟨hcond.1, hcond.2, h1.symm⟩
    · have h1 : (Except.error ⟨.policyViolation, "read not authorized"⟩ :
          Except ClientError ℕ) = .ok rid :=
        congrArg Prod.fst hok
      simp at h1

/-- Witness for C5: with a ledger holding a genesis and a write block, an
unauthorized reader is rejected with PolicyViolation and the ledger is
unchanged. -/
theorem srvRead_authorization_gating_witness :
    findBlock (p := 11) [⟨0, .genesis ⟨0, 0, []⟩⟩, ⟨1, .write ⟨2, [3], []⟩ ⟨0, 0, []⟩⟩] 1 =
      some ⟨1, .write ⟨2, [3], []⟩ ⟨0, 0, []⟩⟩ ∧
    authorize (⟨0, 0, [("read", [7])]⟩ : Darc 11) "read" 4 = false ∧
    srvRead (fun R m => R + (m : ZMod 11))
        [⟨0, .genesis ⟨0, 0, []⟩⟩, ⟨1, .write ⟨2, [3], []⟩ ⟨0, 0, []⟩⟩]
        ⟨0, 0, [("read", [7])]⟩ 1 4 (5, 6) =
      (.error ⟨.policyViolation, "read not authorized"⟩,
       [⟨0, .genesis ⟨0, 0, []⟩⟩, ⟨1, .write ⟨2, [3], []⟩ ⟨0, 0, []⟩⟩]) := by
  refine ⟨by decide, by decide, ?_⟩
  exact (srvRead_authorization_gating (fun R m => R + (m : ZMod 11))
    [⟨0, .genesis ⟨0, 0, []⟩⟩, ⟨1, .write ⟨2, [3], []⟩ ⟨0, 0, []⟩⟩]
    ⟨0, 0, [("read", [7])]⟩ 1 4 (5, 6) 1
    ⟨2, [3], []⟩ ⟨0, 0, []⟩ (by decide)).1 (by decide)

lemma mem_readsReferencing {p : ℕ} (ledger : List (Block p)) (wid : ℕ)
    (doc : ReadDoc p) :
    doc ∈ readsReferencing ledger wid ↔
      ∃ b ∈ ledger, readDocOf b = some doc ∧ doc.dataID = wid := by
  unfold readsReferencing
  rw [List.mem_filterMap]
  constructor
  · rintro ⟨b, hb, hf⟩
    refine ⟨b, hb, ?_⟩
    cases hro : readDocOf b with
    | none => rw [hro] at hf; cases hf
    | some d =>
      rw [hro] at hf
      change (if (d.dataID == wid) = true then some d else none) = some doc at hf
      by_cases hd : (d.dataID == wid) = true
      · rw [if_pos hd] at hf
        injection hf with hf
        subst hf
        exact ⟨rfl, by simpa using hd⟩
      · rw [if_neg hd] at hf
        cases hf
  · rintro ⟨b, hb, hro, hdid⟩
    refine ⟨b, hb, ?_⟩
    rw [hro]
    change (if (doc.dataID == wid) = true then some doc else none) = some doc
    rw [if_pos (by simpa using hdid)]

/-- Claim C8: for an audit query with parameters `(start, count)`, `count = 0`
requires `start` to reference a write block, in which case exactly the read
records referencing that write block are returned (an error is reported when
`start` is not a write block); otherwise at most `count` records, collected
starting from the block `start`, are returned. -/
theorem srvGetReads_spec {p : ℕ} (ledger : List (Block p)) (start count : ℕ) :
    ((count = 0 → ∀ bid w rdrs,
        findBlock ledger start = some ⟨bid, .write w rdrs⟩ →
        srvGetReads ledger start count = .ok (readsReferencing ledger start) ∧
        ∀ doc : ReadDoc p, doc ∈ readsReferencing ledger start ↔
          ∃ b ∈ ledger, readDocOf b = some doc ∧ doc.dataID = start) ∧
     (count = 0 → ∀ bid admin,
        findBlock ledger start = some ⟨bid, .genesis admin⟩ →
        srvGetReads ledger start count =
          .error ⟨.parameter, "start does not point to a write block"⟩)) ∧
    (count ≠ 0 → ∀ docs, srvGetReads ledger start count = .ok docs →
      docs.length ≤ count) := by
  refine ⟨⟨?_, ?_⟩, ?_⟩
  · intro hc bid w rdrs hfind
    subst hc
    constructor
    · unfold srvGetReads
      rw [if_pos rfl, hfind]
    · intro doc
      exact mem_readsReferencing ledger start doc
  · intro hc bid admin hfind
    subst hc
    unfold srvGetReads
    rw [if_pos rfl, hfind]
  · intro hc docs hok
    unfold srvGetReads at hok
    rw [if_neg hc] at hok
    have hdocs : ((ledger.dropWhile (fun b => b.id != start)).filterMap readDocOf).take count
        = docs := by
      simpa using hok
    rw [← hdocs, List.length_take]
    exact min_le_left _ _

/-- Witness for C8: a ledger with one write block (id 1) and two read blocks,
one referencing it; with `count = 0` exactly the referencing read record is
returned, and with `count = 1` at most one record is returned. -/
theorem srvGetReads_spec_witness :
    findBlock (p := 11)
        [⟨0, .genesis ⟨0, 0, []⟩⟩, ⟨1, .write ⟨2, [3], []⟩ ⟨0, 0, []⟩⟩,
         ⟨2, .read 1 4 (5, 6)⟩, ⟨3, .read 9 4 (5, 6)⟩] 1 =
      some ⟨1, .write ⟨2, [3], []⟩ ⟨0, 0, []⟩⟩ ∧
    srvGetReads (p := 11)
        [⟨0, .genesis ⟨0, 0, []⟩⟩, ⟨1, .write ⟨2, [3], []⟩ ⟨0, 0, []⟩⟩,
         ⟨2, .read 1 4 (5, 6)⟩, ⟨3, .read 9 4 (5, 6)⟩] 1 0 =
      .ok (readsReferencing
        [⟨0, .genesis ⟨0, 0, []⟩⟩, ⟨1, .write ⟨2, [3], []⟩ ⟨0, 0, []⟩⟩,
         ⟨2, .read 1 4 (5, 6)⟩, ⟨3, .read 9 4 (5, 6)⟩] 1) ∧
    readsReferencing (p := 11)
        [⟨0, .genesis ⟨0, 0, []⟩⟩, ⟨1, .write ⟨2, [3], []⟩ ⟨0, 0, []⟩⟩,
         ⟨2, .read 1 4 (5, 6)⟩, ⟨3, .read 9 4 (5, 6)⟩] 1 = [⟨2, 1, 4⟩] ∧
    ∀ docs, srvGetReads (p := 11)
        [⟨0, .genesis ⟨0, 0, []⟩⟩, ⟨1, .write ⟨2, [3], []⟩ ⟨0, 0, []⟩⟩,
         ⟨2, .read 1 4 (5, 6)⟩, ⟨3, .read 9 4 (5, 6)⟩] 2 1 = .ok docs →
      docs.length ≤ 1 := by
  refine ⟨by decide, ?_, by decide, ?_⟩
  · exact (((srvGetReads_spec
      [⟨0, .genesis ⟨0, 0, []⟩⟩, ⟨1, .write ⟨2, [3], []⟩ ⟨0, 0, []⟩⟩,
       ⟨2, .read 1 4 (5, 6)⟩, ⟨3, .read 9 4 (5, 6)⟩] 1 0).1.1 rfl 1
      ⟨2, [3], []⟩ ⟨0, 0, []⟩ (by decide)).1)
  · exact fun docs => (srvGetReads_spec
      [⟨0, .genesis ⟨0, 0, []⟩⟩, ⟨1, .write ⟨2, [3], []⟩ ⟨0, 0, []⟩⟩,
       ⟨2, .read 1 4 (5, 6)⟩, ⟨3, .read 9 4 (5, 6)⟩] 2 1).2 (by omega) docs

/-- Counterexample to claim C7 as stated: at the concrete input below, the
wire trace of a DecryptKey call consists of exactly the request with the read
id and the reply; no sent or received message carries the requester public
key `3·G` (nor a chain handle), and the whole trace is the same for two
different readers (private keys 3 and 7), so the requester's public key
cannot be part of what is transmitted.  The reply carries a single
already-reconstructed value `XhatEnc`, not a list of per-node shares. -/
theorem decryptKeyRequest_claim_counterexample :
    (decryptKeyRequestClient (p := 11) 42 3 (.ok ⟨1, [2], 4⟩)).2 =
      [.decryptKeyRequest 42, .decryptKeyReply 1 [2] 4] ∧
    ((decryptKeyRequestClient (p := 11) 42 3 (.ok ⟨1, [2], 4⟩)).2.all
      (fun m => !((msgScalars m).contains (3 * genPoint 11)))) = true ∧
    (decryptKeyRequestClient (p := 11) 42 3 (.ok ⟨1, [2], 4⟩)).2 =
      (decryptKeyRequestClient (p := 11) 42 7 (.ok ⟨1, [2], 4⟩)).2 := by
  exact ⟨rfl, by decide, rfl⟩

/-- Claim C7 (amended): a DecryptKey call sends only the read block id — not
the chain handle and not the requester's public key; the reply contains the
shared public key `X`, the encrypted key chunks `Cs` and the single
already-reconstructed re-encryption `XhatEnc` (not a list of per-node
shares); the client then performs only local decryption via `decodeKey` with
its private key. -/
theorem decryptKeyRequest_message_shape {p : ℕ} (readID : ℕ) (reader : ZMod p)
    (reply : DecryptKeyReply p)
    (decAns : Except ClientError (DecryptKeyReply p)) (hAns : decAns = .ok reply) :
    decryptKeyRequestClient readID reader decAns =
      (.ok (decodeKey reply.X reply.Cs reply.XhatEnc reader),
       [.decryptKeyRequest readID,
        .decryptKeyReply reply.X reply.Cs reply.XhatEnc]) ∧
    (∀ e : ClientError, decryptKeyRequestClient (p := p) readID reader (.error e) =
      (.error e, [.decryptKeyRequest readID])) := by
  subst hAns
  exact ⟨rfl, fun e => rfl⟩

/-- Witness for C7 (amended claim) at a concrete input. -/
theorem decryptKeyRequest_message_shape_witness :
    decryptKeyRequestClient (p := 11) 42 3 (.ok ⟨1, [2], 4⟩) =
      (.ok (decodeKey 1 [2] 4 3),
       [.decryptKeyRequest 42, .decryptKeyReply 1 [2] 4]) := by
  exact (decryptKeyRequest_message_shape 42 3 ⟨1, [2], 4⟩ (.ok ⟨1, [2], 4⟩) rfl).1

/-- The wire trace of a successful round trip (write block gets id 1, read
block id 2). -/
def roundTripTrace {p : ℕ} (H : ZMod p → ℕ → ZMod p) (h : List (ZMod p) → ZMod p)
    (coeffs : List (ZMod p)) (S : Finset (ZMod p)) (policy : Darc p)
    (adminSig : ZMod p × ZMod p) (symKey data : List (ZMod p))
    (r kNonce reader : ZMod p) : List (WireMsg p) :=
  let X := sharedSecret coeffs * genPoint p
  let w : WriteStruct p := { newWrite X symKey r with Data := encryptSym h symKey data }
  let Xc := reader * genPoint p
  let rsig := signSchnorr H reader 1 kNonce
  let XhatEnc := recoverCommit S (fun xi => partialReencrypt (evalPoly coeffs xi) w.U Xc)
  [.sharedPublicRequest 0, .sharedPublicReply X,
   .writeRequest 0 w policy adminSig, .writeReply 1,
   .readRequest 0 1 Xc rsig, .readReply 2,
   .decryptKeyRequest 2, .decryptKeyReply X w.Cs XhatEnc]

lemma writeRequestClient_ok {p : ℕ} (genesis : ℕ) (encData symKey : List (ZMod p))
    (sig : ZMod p × ZMod p) (acl : Darc p) (r X : ZMod p) (wid : ℕ)
    (hlen : encData.length ≤ 10000000) :
    writeRequestClient genesis encData symKey sig acl r (.ok X) (.ok wid) =
      (.ok wid,
       [.sharedPublicRequest genesis, .sharedPublicReply X,
        .writeRequest genesis { newWrite X symKey r with Data := encData } acl sig,
        .writeReply wid]) := by
  unfold writeRequestClient
  rw [if_neg (by omega)]

lemma decodeKey_newWrite {p : ℕ} [Fact p.Prime] (coeffs : List (ZMod p))
    (S : Finset (ZMod p)) (symKey : List (ZMod p)) (r xc : ZMod p)
    (hS : coeffs.length ≤ S.card) :
    decodeKey (sharedSecret coeffs * genPoint p)
      (newWrite (sharedSecret coeffs * genPoint p) symKey r).Cs
      (recoverCommit S (fun xi => partialReencrypt (evalPoly coeffs xi)
        (newWrite (sharedSecret coeffs * genPoint p) symKey r).U (xc * genPoint p)))
      xc = symKey := by
  have hrec : recoverCommit S (fun xi => partialReencrypt (evalPoly coeffs xi)
      (newWrite (sharedSecret coeffs * genPoint p) symKey r).U (xc * genPoint p)) =
      sharedSecret coeffs *
        ((newWrite (sharedSecret coeffs * genPoint p) symKey r).U + xc * genPoint p) := by
    simp only [partialReencrypt]
    exact recoverCommit_evalPoly_mul S coeffs _ hS
  rw [hrec]
  unfold decodeKey newWrite genPoint
  simp only [mul_one, List.map_map]
  have hid : ((fun C => C +
      -(sharedSecret coeffs * (r + xc) + -xc * sharedSecret coeffs)) ∘
      (fun kp => r * sharedSecret coeffs + kp)) = id := by
    funext kp
    simp only [Function.comp_apply, id_eq]
    ring
  rw [hid, List.map_id]

/-- Under the round-trip hypotheses (payload within the cap, reader authorized
by the policy's read rule, enough share holders), the composed protocol run
succeeds, returns the symmetric key and produces exactly the expected wire
trace. -/
lemma runRoundTrip_spec {p : ℕ} [Fact p.Prime] (H : ZMod p → ℕ → ZMod p)
    (h : List (ZMod p) → ZMod p) (coeffs : List (ZMod p)) (S : Finset (ZMod p))
    (policy : Darc p) (adminSig : ZMod p × ZMod p) (symKey data : List (ZMod p))
    (r kNonce reader : ZMod p)
    (hlen : (encryptSym h symKey data).length ≤ 10000000)
    (hauth : authorize policy "read" (reader * genPoint p) = true)
    (hS : coeffs.length ≤ S.card) :
    runRoundTrip H h coeffs S policy adminSig symKey data r kNonce reader =
      (.ok symKey,
       roundTripTrace H h coeffs S policy adminSig symKey data r kNonce reader) := by
  have hlen2 : ¬ (encryptSym h symKey data).length > 10000000 := by omega
  have hver := verifySchnorr_signSchnorr H reader (1 : ℕ) kNonce
  have hdec := decodeKey_newWrite coeffs S symKey r reader hS
  simp [runRoundTrip, srvWrite, writeRequestClient, readRequestClient, srvRead,
    srvDecrypt, decryptKeyRequestClient, findBlock, roundTripTrace, hlen2, hauth,
    hver, hdec]

/-- Claim C1: for any symmetric key and data, performing Write (which
encrypts the key and anchors the write), then a fully-authorized Read, then
DecryptKey returns exactly the original symmetric key to the client; and
decrypting the ciphertext with that key yields the original data. -/
theorem roundTrip_correct {p : ℕ} [Fact p.Prime] (H : ZMod p → ℕ → ZMod p)
    (h : List (ZMod p) → ZMod p) (coeffs : List (ZMod p)) (S : Finset (ZMod p))
    (policy : Darc p) (adminSig : ZMod p × ZMod p) (symKey data : List (ZMod p))
    (r kNonce reader : ZMod p)
    (hlen : data.length ≤ 10000000)
    (hauth : authorize policy "read" (reader * genPoint p) = true)
    (hS : coeffs.length ≤ S.card) :
    (runRoundTrip H h coeffs S policy adminSig symKey data r kNonce reader).1 =
      .ok symKey ∧
    decryptSym h symKey (encryptSym h symKey data) = data := by
  have hlen2 : (encryptSym h symKey data).length ≤ 10000000 := by
    unfold encryptSym
    rw [List.length_map]
    exact hlen
  constructor
  · rw [runRoundTrip_spec H h coeffs S policy adminSig symKey data r kNonce reader
      hlen2 hauth hS]
  · unfold decryptSym encryptSym
    rw [List.map_map]
    have hid : ((fun b => b - h symKey) ∘ (fun b => b + h symKey)) = id := by
      funext b
      simp
    rw [hid, List.map_id]

/-- Witness for C1: a concrete full round trip in `ZMod 11` with sharing
polynomial `4 + 7·X`, share holders `{1, 2}`, writer randomness `2`, reader
private key `3` (authorized by the policy), nonce `9`, symmetric key `[5]`
and data `[6]`. -/
theorem roundTrip_correct_witness :
    ([(6 : ZMod 11)]).length ≤ 10000000 ∧
    authorize (⟨0, 0, [("read", [3])]⟩ : Darc 11) "read" (3 * genPoint 11) = true ∧
    ([(4 : ZMod 11), 7]).length ≤ ({1, 2} : Finset (ZMod 11)).card ∧
    (runRoundTrip (fun R m => R + (m : ZMod 11)) (fun key => key.sum) [4, 7]
        ({1, 2} : Finset (ZMod 11)) ⟨0, 0, [("read", [3])]⟩ (1, 1) [5] [6]
        2 9 3).1 = .ok [5] ∧
    decryptSym (fun key => key.sum) [5]
        (encryptSym (fun key => key.sum) [5] [(6 : ZMod 11)]) = [6] := by
  have ha : authorize (⟨0, 0, [("read", [3])]⟩ : Darc 11) "read" (3 * genPoint 11) =
      true := by decide
  have hb : ([(4 : ZMod 11), 7]).length ≤ ({1, 2} : Finset (ZMod 11)).card := by
    decide
  haveI i11 : Fact (Nat.Prime 11) := fact_iff.mpr (by norm_num)
  have h := roundTrip_correct (fun R m => R + (m : ZMod 11)) (fun key => key.sum)
    [4, 7] ({1, 2} : Finset (ZMod 11)) ⟨0, 0, [("read", [3])]⟩ (1, 1) [5] [6]
    2 9 3 (by norm_num) ha hb
  exact ⟨by norm_num, ha, hb, h.1, h.2⟩

/-- Claim C6: the plaintext symmetric key is never transmitted.  The write
operation sends the key only in its ElGamal-encrypted form (the trace
characterization, first conjunct, exhibits every message of the write, read
and decrypt operations), and no message sent or received in the whole round
trip carries a chunk of the plaintext symmetric key (second conjunct); the
requester recovers the key only by local decryption with their private key.
The hypotheses rule out the algebraic coincidences a one-prime model cannot
exclude: `hmask` says no key chunk differs from another by exactly the
ElGamal mask `r·x` (for the chunk itself this is the nondegeneracy `r·x ≠ 0`),
`hpub` says no chunk collides with the public protocol values not derived
from the key, and `henc` says the symmetric ciphertext does not leak a chunk
in the clear. -/
theorem plaintext_key_never_transmitted {p : ℕ} [Fact p.Prime]
    (H : ZMod p → ℕ → ZMod p) (h : List (ZMod p) → ZMod p)
    (coeffs : List (ZMod p)) (S : Finset (ZMod p)) (policy : Darc p)
    (adminSig : ZMod p × ZMod p) (symKey data : List (ZMod p))
    (r kNonce reader : ZMod p)
    (hlen : (encryptSym h symKey data).length ≤ 10000000)
    (hauth : authorize policy "read" (reader * genPoint p) = true)
    (hS : coeffs.length ≤ S.card)
    (hmask : ∀ a ∈ symKey, ∀ b ∈ symKey, a - b ≠ r * sharedSecret coeffs)
    (hpub : ∀ c ∈ symKey, c ∉
      ([sharedSecret coeffs * genPoint p, r * genPoint p, reader * genPoint p,
        adminSig.1, adminSig.2, (signSchnorr H reader 1 kNonce).1,
        (signSchnorr H reader 1 kNonce).2,
        sharedSecret coeffs * (r * genPoint p + reader * genPoint p)] ++
        darcScalars policy))
    (henc : ∀ c ∈ symKey, c ∉ encryptSym h symKey data) :
    (runRoundTrip H h coeffs S policy adminSig symKey data r kNonce reader).2 =
      roundTripTrace H h coeffs S policy adminSig symKey data r kNonce reader ∧
    ∀ c ∈ symKey,
      ∀ m ∈ (runRoundTrip H h coeffs S policy adminSig symKey data r kNonce reader).2,
        c ∉ msgScalars m := by
  have hspec := runRoundTrip_spec H h coeffs S policy adminSig symKey data r
    kNonce reader hlen hauth hS
  rw [hspec]
  refine ⟨rfl, ?_⟩
  intro c hc m hm
  have hpub' := hpub c hc
  simp only [List.mem_append, List.mem_cons, List.not_mem_nil, or_false,
    not_or] at hpub'
  obtain ⟨⟨hX, hU, hXc, hs1, hs2, hR, hs, hXh⟩, hdarc⟩ := hpub'
  have hXhat : recoverCommit S (fun xi => partialReencrypt (evalPoly coeffs xi)
      (r * genPoint p) (reader * genPoint p)) =
      sharedSecret coeffs * (r * genPoint p + reader * genPoint p) := by
    simp only [partialReencrypt]
    exact recoverCommit_evalPoly_mul S coeffs (r * genPoint p + reader * genPoint p) hS
  have hCs : c ∉ List.map (fun kp => r * (sharedSecret coeffs * genPoint p) + kp) symKey := by
    intro hmem
    obtain ⟨kp, hkp, hfk⟩ := List.mem_map.mp hmem
    refine hmask c hc kp hkp ?_
    rw [← hfk]
    unfold genPoint
    ring
  simp only [roundTripTrace, newWrite] at hm
  simp only [List.mem_cons, List.not_mem_nil, or_false] at hm
  rcases hm with rfl | rfl | rfl | rfl | rfl | rfl | rfl | rfl
  · simp [msgScalars]
  · simp [msgScalars]
    exact hX
  · simp only [msgScalars, List.mem_cons, List.mem_append]
    rintro (hc1 | ((hc2 | hc3) | hc4) | hc5 | hc6 | hc7)
    · exact hU hc1
    · exact hCs hc2
    · exact henc c hc hc3
    · exact hdarc hc4
    · exact hs1 hc5
    · exact hs2 hc6
    · simp at hc7
  · simp [msgScalars]
  · simp only [msgScalars, List.mem_cons, List.not_mem_nil, or_false]
    rintro (hc1 | hc2 | hc3)
    · exact hXc hc1
    · exact hR hc2
    · exact hs hc3
  · simp [msgScalars]
  · simp [msgScalars]
  · simp only [msgScalars, List.mem_cons, List.mem_append,
      List.not_mem_nil, or_false]
    rw [hXhat]
    rintro (hc1 | hc2 | hc3)
    · exact hX hc1
    · exact hCs hc2
    · exact hXh hc3

/-- Witness for C6: the concrete round trip of the C1 witness; the single key
chunk `5` satisfies all coincidence-exclusion hypotheses and appears in no
transmitted message. -/
theorem plaintext_key_never_transmitted_witness :
    (∀ a ∈ [(5 : ZMod 11)], ∀ b ∈ [(5 : ZMod 11)],
      a - b ≠ 2 * sharedSecret [4, 7]) ∧
    (∀ c ∈ [(5 : ZMod 11)], c ∉
      ([sharedSecret [4, 7] * genPoint 11, 2 * genPoint 11, 3 * genPoint 11,
        ((1 : ZMod 11), (1 : ZMod 11)).1, ((1 : ZMod 11), (1 : ZMod 11)).2,
        (signSchnorr (fun R m => R + (m : ZMod 11)) 3 1 9).1,
        (signSchnorr (fun R m => R + (m : ZMod 11)) 3 1 9).2,
        sharedSecret [4, 7] * (2 * genPoint 11 + 3 * genPoint 11)] ++
        darcScalars (⟨0, 0, [("read", [3])]⟩ : Darc 11))) ∧
    (∀ c ∈ [(5 : ZMod 11)],
      c ∉ encryptSym (fun key => key.sum) [5] [(6 : ZMod 11)]) ∧
    ∀ c ∈ [(5 : ZMod 11)],
      ∀ m ∈ (runRoundTrip (fun R m => R + (m : ZMod 11)) (fun key => key.sum)
          [4, 7] ({1, 2} : Finset (ZMod 11)) ⟨0, 0, [("read", [3])]⟩ (1, 1)
          [5] [6] 2 9 3).2,
        c ∉ msgScalars m := by
  have hlen : (encryptSym (fun key => key.sum) [5] [(6 : ZMod 11)]).length ≤
      10000000 := by decide
  have hauth : authorize (⟨0, 0, [("read", [3])]⟩ : Darc 11) "read"
      (3 * genPoint 11) = true := by decide
  have hS : ([(4 : ZMod 11), 7]).length ≤ ({1, 2} : Finset (ZMod 11)).card := by
    decide
  have hmask : ∀ a ∈ [(5 : ZMod 11)], ∀ b ∈ [(5 : ZMod 11)],
      a - b ≠ 2 * sharedSecret [4, 7] := by decide
  have hpub : ∀ c ∈ [(5 : ZMod 11)], c ∉
      ([sharedSecret [4, 7] * genPoint 11, 2 * genPoint 11, 3 * genPoint 11,
        ((1 : ZMod 11), (1 : ZMod 11)).1, ((1 : ZMod 11), (1 : ZMod 11)).2,
        (signSchnorr (fun R m => R + (m : ZMod 11)) 3 1 9).1,
        (signSchnorr (fun R m => R + (m : ZMod 11)) 3 1 9).2,
        sharedSecret [4, 7] * (2 * genPoint 11 + 3 * genPoint 11)] ++
        darcScalars (⟨0, 0, [("read", [3])]⟩ : Darc 11)) := by decide
  have henc : ∀ c ∈ [(5 : ZMod 11)],
      c ∉ encryptSym (fun key => key.sum) [5] [(6 : ZMod 11)] := by decide
  haveI i11 : Fact (Nat.Prime 11) := fact_iff.mpr (by norm_num)
  have h := plaintext_key_never_transmitted (fun R m => R + (m : ZMod 11))
    (fun key => key.sum) [4, 7] ({1, 2} : Finset (ZMod 11))
    ⟨0, 0, [("read", [3])]⟩ (1, 1) [5] [6] 2 9 3 hlen hauth hS hmask hpub henc
  exact ⟨hmask, hpub, henc, h.2⟩

end OnchainSecrets

namespace CothorityTree

/-- A node of the conode tree (graphs.Tree of src/unnamed/part_001): host
name, public key, children. -/
inductive Tree where
  | mk (name pubKey : String) (children : List Tree)

/-- The host name of the root of a tree. -/
def Tree.name : Tree → String
  | .mk nm _ _ => nm

/-- The public key of the root of a tree. -/
def Tree.pubKey : Tree → String
  | .mk _ k _ => k

/-- The children of the root of a tree. -/
def Tree.children : Tree → List Tree
  | .mk _ _ c => c

/-- The BFS queue loop of constructTree (src/unnamed/part_001, lines
297-314).  `queue` holds the host indices of created-but-not-yet-processed
nodes (node identity is its host index), `index` is the next unassigned host
index, and `acc` is the children assignment built so far.  One iteration
dequeues a node `t`, hands it the next `min bf (n - index)` host indices as
children (the effect of the inner `for lbf < bf and index < n` loop) and
enqueues those children; the loop stops when the queue is empty or all hosts
are assigned. -/
def buildLoop (n bf : ℕ) : List ℕ → ℕ → (ℕ → List ℕ) → (ℕ → List ℕ)
  | [], _, acc => acc
  | t :: rest, index, acc =>
    if index < n then
      buildLoop n bf (rest ++ List.range' index (min bf (n - index)))
        (index + min bf (n - index))
        (fun i => if i = t then List.range' index (min bf (n - index)) else acc i)
    else acc
termination_by queue index _ => (n - index) + queue.length
decreasing_by
  simp only [List.length_append, List.length_range', List.length_cons]
  omega

/-- Closed form of the children assignment computed by `buildLoop`: node `j`
receives host indices `j*bf+1 .. j*bf+bf` (intersected with `[1, n)`) as
children. -/
def goKids (n bf j : ℕ) : List ℕ :=
  List.range' (j * bf + 1) (min bf (n - min n (j * bf + 1)))

lemma goKids_empty_of_ge (n bf j : ℕ) (h : n ≤ j * bf + 1) :
    goKids n bf j = [] := by
  unfold goKids
  rw [min_eq_left h]
  simp

lemma buildLoop_closed (n bf : ℕ) (hbf : 1 ≤ bf) :
    ∀ k m index acc, n - m ≤ k → index = min n (m * bf + 1) →
      (∀ j, m ≤ j → acc j = []) →
      ∀ j, buildLoop n bf (List.range' m (index - m)) index acc j =
        if j < m then acc j else goKids n bf j := by
  intro k
  induction k with
  | zero =>
    intro m index acc hk hidx hacc j
    have hmmb : m ≤ m * bf := Nat.le_mul_of_pos_right m hbf
    have hidx2 : index = n := by omega
    have hq : index - m = 0 := by omega
    rw [hq, List.range'_zero]
    simp only [buildLoop]
    by_cases hjm : j < m
    · rw [if_pos hjm]
    · rw [if_neg hjm]
      rw [hacc j (by omega)]
      have hjb : j ≤ j * bf := Nat.le_mul_of_pos_right j hbf
      exact (goKids_empty_of_ge n bf j (by omega)).symm
  | succ k ih =>
    intro m index acc hk hidx hacc j
    have hmmb : m ≤ m * bf := Nat.le_mul_of_pos_right m hbf
    by_cases hmn : m < n
    · by_cases hin : index < n
      · -- the dequeued node gets a full (or final partial) batch of children
        have hidx2 : index = m * bf + 1 := by omega
        have hqlen : index - m = (index - m - 1) + 1 := by omega
        rw [hqlen, List.range'_succ]
        simp only [buildLoop]
        rw [if_pos hin]
        have happ : List.range' (m + 1) (index - m - 1) ++
            List.range' index (min bf (n - index)) =
            List.range' (m + 1)
              ((index + min bf (n - index)) - (m + 1)) := by
          have h2 := List.range'_append (m + 1) (index - m - 1)
            (min bf (n - index)) 1
          rw [show (m + 1) + 1 * (index - m - 1) = index by omega] at h2
          rw [h2]
          congr 1
          omega
        rw [happ]
        have hsm : (m + 1) * bf = m * bf + bf := Nat.succ_mul m bf
        have hres := ih (m + 1) (index + min bf (n - index))
          (fun i => if i = m then List.range' index (min bf (n - index)) else acc i)
          (by omega) (by omega)
          (fun j2 hj2 => by
            have hne : ¬ j2 = m := by omega
            simp only [hne, if_false]
            exact hacc j2 (by omega)) j
        rw [hres]
        by_cases hjm : j < m
        · have h1 : j < m + 1 := by omega
          have h2 : ¬ j = m := by omega
          rw [if_pos h1, if_neg h2, if_pos hjm]
        · by_cases hjm2 : j = m
          · subst hjm2
            rw [if_pos (Nat.lt_succ_self j), if_pos rfl, if_neg (lt_irrefl j)]
            unfold goKids
            have hmin : n ⊓ (j * bf + 1) = j * bf + 1 := by omega
            rw [hmin, ← hidx2]
          · have h1 : ¬ j < m + 1 := by omega
            rw [if_neg h1, if_neg hjm]
      · -- all hosts assigned: the loop exits with queued leaves unprocessed
        have hidx2 : index = n := by omega
        have hqlen : index - m = (index - m - 1) + 1 := by omega
        rw [hqlen, List.range'_succ]
        simp only [buildLoop]
        rw [if_neg hin]
        by_cases hjm : j < m
        · rw [if_pos hjm]
        · rw [if_neg hjm]
          rw [hacc j (by omega)]
          have hjb : m * bf ≤ j * bf := Nat.mul_le_mul_right bf (by omega)
          exact (goKids_empty_of_ge n bf j (by omega)).symm
    · -- n ≤ m: no hosts left at all
      have hidx2 : index = n := by omega
      have hq : index - m = 0 := by omega
      rw [hq, List.range'_zero]
      simp only [buildLoop]
      by_cases hjm : j < m
      · rw [if_pos hjm]
      · rw [if_neg hjm]
        rw [hacc j (by omega)]
        have hjb : j ≤ j * bf := Nat.le_mul_of_pos_right j hbf
        exact (goKids_empty_of_ge n bf j (by omega)).symm

/-- Run from the initial state of constructTree (root enqueued, `index = 1`),
the queue loop computes exactly the closed-form assignment `goKids`. -/
lemma buildLoop_init (n bf : ℕ) (hbf : 1 ≤ bf) (hn : 1 ≤ n) :
    buildLoop n bf [0] 1 (fun _ => []) = goKids n bf := by
  funext j
  have h := buildLoop_closed n bf hbf n 0 1 (fun _ => []) (by omega) (by omega)
    (fun j2 hj2 => rfl) j
  rw [if_neg (by omega)] at h
  rw [show (1 : ℕ) - 0 = 1 by omega, List.range'_one] at h
  exact h

/-- Materialize the tree from the children assignment: node `j` becomes a
`Tree` with `hosts[j]`/`pubs[j]` and its assigned children as subtrees.
`fuel` bounds the recursion depth; since every child index is strictly larger
than its parent, `fuel = hosts.length` always suffices. -/
def assemble (hosts pubs : List String) (kids : ℕ → List ℕ) : ℕ → ℕ → Tree
  | 0, j => .mk (hosts.getD j "") (pubs.getD j "") []
  | fuel + 1, j => .mk (hosts.getD j "") (pubs.getD j "")
      ((kids j).map (assemble hosts pubs kids fuel))

/-- constructTree from src/unnamed/part_001 (lines 290-316): the root is
host 0, the queue starts as `[root]` with `index = 1`, and the BFS loop
assigns children; the well-founded recursion of `buildLoop` witnesses the
termination of the Go loop. -/
def constructTree (hosts pubs : List String) (bf : ℕ) : Tree :=
  assemble hosts pubs (buildLoop hosts.length bf [0] 1 (fun _ => []))
    hosts.length 0

/-- The names of all nodes of a tree, in preorder. -/
def treeNames : Tree → List String
  | .mk nm _ c => nm :: (c.attach.map (fun x => treeNames x.1)).flatten
decreasing_by
  simp only [Tree.mk.sizeOf_spec]
  have h1 := List.sizeOf_lt_of_mem x.2
  omega

lemma treeNames_mk (nm k : String) (c : List Tree) :
    treeNames (.mk nm k c) = nm :: (c.map treeNames).flatten := by
  unfold treeNames
  rw [List.attach_map_val c treeNames]

/-- All subtrees of a tree (the tree itself included). -/
def allSubtrees : Tree → List Tree
  | .mk nm k c => .mk nm k c :: (c.attach.map (fun x => allSubtrees x.1)).flatten
decreasing_by
  simp only [Tree.mk.sizeOf_spec]
  have h1 := List.sizeOf_lt_of_mem x.2
  omega

lemma allSubtrees_mk (nm k : String) (c : List Tree) :
    allSubtrees (.mk nm k c) = .mk nm k c :: (c.map allSubtrees).flatten := by
  unfold allSubtrees
  rw [List.attach_map_val c allSubtrees]

/-- The host indices of the subtree rooted at `j`, mirroring `assemble`. -/
def subtreeIdx (kids : ℕ → List ℕ) : ℕ → ℕ → List ℕ
  | 0, j => [j]
  | fuel + 1, j => j :: ((kids j).map (subtreeIdx kids fuel)).flatten

lemma treeNames_assemble (hosts pubs : List String) (kids : ℕ → List ℕ) :
    ∀ fuel j, treeNames (assemble hosts pubs kids fuel j) =
      (subtreeIdx kids fuel j).map (fun i => hosts.getD i "") := by
  intro fuel
  induction fuel with
  | zero => intro j; simp [assemble, treeNames_mk, subtreeIdx]
  | succ fuel ih =>
    intro j
    have hfun : (treeNames ∘ assemble hosts pubs kids fuel) =
        ((List.map fun i => hosts.getD i "") ∘ subtreeIdx kids fuel) :=
      funext ih
    simp only [assemble, treeNames_mk, subtreeIdx, List.map_cons, List.map_map,
      List.map_flatten, hfun]

/-- In the bf-ary BFS layout the parent of node `i ≥ 1` is `(i-1)/bf`;
`isAnc bf j i` says that `j` lies on the parent chain of `i` (`i` itself
included). -/
def isAnc (bf j i : ℕ) : Bool :=
  if i = j then true
  else if h : i = 0 then false
  else isAnc bf j ((i - 1) / bf)
termination_by i
decreasing_by
  have h1 := Nat.div_le_self (i - 1) bf
  omega

lemma isAnc_self (bf j : ℕ) : isAnc bf j j = true := by
  unfold isAnc
  simp

lemma isAnc_of_ne_of_pos (bf j i : ℕ) (hne : i ≠ j) (hpos : i ≠ 0) :
    isAnc bf j i = isAnc bf j ((i - 1) / bf) := by
  conv =>
    lhs
    unfold isAnc
  rw [if_neg hne, dif_neg hpos]

lemma isAnc_zero_iff (bf j : ℕ) : isAnc bf j 0 = true ↔ j = 0 := by
  unfold isAnc
  by_cases h : (0 : ℕ) = j
  · rw [if_pos h]
    simp [h.symm]
  · rw [if_neg h, dif_pos rfl]
    simp
    omega

lemma isAnc_le (bf j : ℕ) : ∀ i, isAnc bf j i = true → j ≤ i := by
  intro i
  induction i using Nat.strong_induction_on with
  | _ i ih =>
    intro h
    by_cases hij : i = j
    · omega
    · by_cases hi0 : i = 0
      · subst hi0
        have := (isAnc_zero_iff bf j).mp h
        omega
      · rw [isAnc_of_ne_of_pos bf j i hij hi0] at h
        have h1 := ih ((i - 1) / bf)
          (by have := Nat.div_le_self (i - 1) bf; omega) h
        have h2 := Nat.div_le_self (i - 1) bf
        omega

lemma isAnc_zero_root (bf : ℕ) : ∀ i, isAnc bf 0 i = true := by
  intro i
  induction i using Nat.strong_induction_on with
  | _ i ih =>
    by_cases hi0 : i = 0
    · subst hi0
      exact isAnc_self bf 0
    · rw [isAnc_of_ne_of_pos bf 0 i hi0 hi0]
      exact ih ((i - 1) / bf) (by have := Nat.div_le_self (i - 1) bf; omega)

lemma isAnc_trans (bf a j : ℕ) (hja : isAnc bf j a = true) :
    ∀ i, isAnc bf a i = true → isAnc bf j i = true := by
  intro i
  induction i using Nat.strong_induction_on with
  | _ i ih =>
    intro hai
    by_cases hia : i = a
    · subst hia
      exact hja
    · by_cases hi0 : i = 0
      · subst hi0
        have ha0 := (isAnc_zero_iff bf a).mp hai
        subst ha0
        exact hja
      · rw [isAnc_of_ne_of_pos bf a i hia hi0] at hai
        have h2 := ih ((i - 1) / bf)
          (by have := Nat.div_le_self (i - 1) bf; omega) hai
        by_cases hij : i = j
        · subst hij
          exact isAnc_self bf i
        · rw [isAnc_of_ne_of_pos bf j i hij hi0]
          exact h2

lemma parent_mem_iff (bf j c : ℕ) (hbf : 1 ≤ bf) (hc : 1 ≤ c) :
    (c - 1) / bf = j ↔ (j * bf + 1 ≤ c ∧ c ≤ j * bf + bf) := by
  have hbfpos : 0 < bf := hbf
  constructor
  · intro h
    have h1 : j * bf ≤ c - 1 :=
      (Nat.le_div_iff_mul_le hbfpos).mp (le_of_eq h.symm)
    have h2 : c - 1 < (j + 1) * bf :=
      (Nat.div_lt_iff_lt_mul hbfpos).mp (by omega)
    have hsm : (j + 1) * bf = j * bf + bf := Nat.succ_mul j bf
    omega
  · intro hcc
    have hsm : (j + 1) * bf = j * bf + bf := Nat.succ_mul j bf
    exact Nat.div_eq_of_lt_le (by omega) (by omega)

lemma mem_goKids (n bf j c : ℕ) :
    c ∈ goKids n bf j ↔ (j * bf + 1 ≤ c ∧ c ≤ j * bf + bf ∧ c < n) := by
  unfold goKids
  rw [List.mem_range']
  constructor
  · rintro ⟨i, hi, rfl⟩
    omega
  · intro hcc
    exact ⟨c - (j * bf + 1), by omega, by omega⟩

lemma isAnc_step (bf j : ℕ) :
    ∀ i, i ≠ j → isAnc bf j i = true →
      ∃ c, (c - 1) / bf = j ∧ 1 ≤ c ∧ c ≤ i ∧ isAnc bf c i = true := by
  intro i
  induction i using Nat.strong_induction_on with
  | _ i ih =>
    intro hne h
    by_cases hi0 : i = 0
    · subst hi0
      have := (isAnc_zero_iff bf j).mp h
      omega
    · rw [isAnc_of_ne_of_pos bf j i hne hi0] at h
      by_cases hp : (i - 1) / bf = j
      · exact ⟨i, hp, by omega, le_refl i, isAnc_self bf i⟩
      · obtain ⟨c, hc1, hc2, hc3, hc4⟩ := ih ((i - 1) / bf)
          (by have := Nat.div_le_self (i - 1) bf; omega) hp h
        refine ⟨c, hc1, hc2, ?_, ?_⟩
        · have := Nat.div_le_self (i - 1) bf
          omega
        · by_cases hic : i = c
          · subst hic
            exact isAnc_self bf i
          · rw [isAnc_of_ne_of_pos bf c i hic hi0]
            exact hc4

lemma anc_unique (bf : ℕ) (hbf : 1 ≤ bf) (j c c' : ℕ)
    (hc : (c - 1) / bf = j) (hc' : (c' - 1) / bf = j)
    (h1 : 1 ≤ c) (h1' : 1 ≤ c') (hne : c ≠ c') :
    ∀ i, isAnc bf c i = true → isAnc bf c' i = true → False := by
  intro i
  induction i using Nat.strong_induction_on with
  | _ i ih =>
    intro ha hb
    by_cases hic : i = c
    · subst hic
      rw [isAnc_of_ne_of_pos bf c' i (by omega) (by omega), hc] at hb
      have hle := isAnc_le bf c' j hb
      have hp := (parent_mem_iff bf j c' hbf h1').mp hc'
      have hjb : j ≤ j * bf := Nat.le_mul_of_pos_right j hbf
      omega
    · by_cases hic2 : i = c'
      · subst hic2
        rw [isAnc_of_ne_of_pos bf c i (by omega) (by omega), hc'] at ha
        have hle := isAnc_le bf c j ha
        have hp := (parent_mem_iff bf j c hbf h1).mp hc
        have hjb : j ≤ j * bf := Nat.le_mul_of_pos_right j hbf
        omega
      · by_cases hi0 : i = 0
        · subst hi0
          have := (isAnc_zero_iff bf c).mp ha
          omega
        · rw [isAnc_of_ne_of_pos bf c i hic hi0] at ha
          rw [isAnc_of_ne_of_pos bf c' i hic2 hi0] at hb
          exact ih ((i - 1) / bf)
            (by have := Nat.div_le_self (i - 1) bf; omega) ha hb

lemma isAnc_of_kid (n bf j c : ℕ) (hbf : 1 ≤ bf) (hmem : c ∈ goKids n bf j) :
    isAnc bf j c = true := by
  rw [mem_goKids] at hmem
  have hjb : j ≤ j * bf := Nat.le_mul_of_pos_right j hbf
  rw [isAnc_of_ne_of_pos bf j c (by omega) (by omega)]
  rw [(parent_mem_iff bf j c hbf (by omega)).mpr ⟨hmem.1, hmem.2.1⟩]
  exact isAnc_self bf j

lemma count_filter_range (n : ℕ) (P : ℕ → Bool) (a : ℕ) :
    List.count a ((List.range n).filter P) =
      if a < n ∧ P a = true then 1 else 0 := by
  by_cases h : a < n ∧ P a = true
  · rw [if_pos h]
    exact List.count_eq_one_of_mem ((List.nodup_range n).filter P)
      (List.mem_filter.mpr ⟨List.mem_range.mpr h.1, h.2⟩)
  · rw [if_neg h]
    refine List.count_eq_zero_of_not_mem ?_
    intro hmem
    obtain ⟨h1, h2⟩ := List.mem_filter.mp hmem
    exact h ⟨List.mem_range.mp h1, h2⟩

lemma sum_map_eq_one_of_unique {α : Type} (l : List α) (f : α → ℕ) (c₀ : α)
    (hnd : l.Nodup) (hmem : c₀ ∈ l) (hone : f c₀ = 1)
    (hzero : ∀ c ∈ l, c ≠ c₀ → f c = 0) :
    (l.map f).sum = 1 := by
  induction l with
  | nil => cases hmem
  | cons x xs ih =>
    rw [List.map_cons, List.sum_cons]
    rcases List.mem_cons.mp hmem with heq | hx
    · subst heq
      rw [hone]
      have hz : (xs.map f).sum = 0 := by
        refine List.sum_eq_zero ?_
        intro y hy
        obtain ⟨c, hc, rfl⟩ := List.mem_map.mp hy
        refine hzero c (by simp [hc]) ?_
        intro hcc
        subst hcc
        exact (List.nodup_cons.mp hnd).1 hc
      omega
    · have hxne : x ≠ c₀ := by
        intro hxc
        subst hxc
        exact (List.nodup_cons.mp hnd).1 hx
      rw [hzero x (by simp) hxne]
      have hrec := ih (List.nodup_cons.mp hnd).2 hx
        (fun c hc hne => hzero c (by simp [hc]) hne)
      omega

lemma nodup_goKids (n bf j : ℕ) : (goKids n bf j).Nodup :=
  List.nodup_range' _ _

/-- Partition of the BFS layout: the nodes below `j` are `j` itself together
with, for each child of `j`, the nodes below that child; distinct children
have disjoint descendant sets. -/
lemma anc_filter_partition (n bf j : ℕ) (hbf : 1 ≤ bf) (hj : j < n) :
    ((List.range n).filter (fun i => isAnc bf j i)).Perm
      (j :: ((goKids n bf j).map
        (fun c => (List.range n).filter (fun i => isAnc bf c i))).flatten) := by
  rw [List.perm_iff_count]
  intro a
  rw [List.count_cons, List.count_flatten, List.map_map, count_filter_range]
  have hterm : ∀ c ∈ goKids n bf j,
      (List.count a ∘ fun c => (List.range n).filter (fun i => isAnc bf c i)) c =
      (fun c => if a < n ∧ isAnc bf c a = true then 1 else 0) c := by
    intro c hc
    exact count_filter_range n _ a
  rw [List.map_congr_left hterm]
  by_cases han : a < n
  · by_cases haj : a = j
    · subst haj
      rw [if_pos ⟨han, isAnc_self bf a⟩]
      have hsum : ((goKids n bf a).map
          (fun c => if a < n ∧ isAnc bf c a = true then 1 else 0)).sum = 0 := by
        refine List.sum_eq_zero ?_
        intro y hy
        obtain ⟨c, hc, rfl⟩ := List.mem_map.mp hy
        rw [if_neg]
        rintro ⟨-, hanc⟩
        have hle := isAnc_le bf c a hanc
        rw [mem_goKids] at hc
        have hjb : a ≤ a * bf := Nat.le_mul_of_pos_right a hbf
        omega
      rw [hsum]
      simp
    · have hbeq : (j == a) = false := by
        simp
        omega
      rw [hbeq]
      by_cases hanc : isAnc bf j a = true
      · rw [if_pos ⟨han, hanc⟩]
        obtain ⟨c₀, hp, h1, hle, hanc0⟩ := isAnc_step bf j a haj hanc
        have hc₀mem : c₀ ∈ goKids n bf j := by
          rw [mem_goKids]
          have hpp := (parent_mem_iff bf j c₀ hbf h1).mp hp
          exact ⟨hpp.1, hpp.2, by omega⟩
        have hsum := sum_map_eq_one_of_unique (goKids n bf j)
          (fun c => if a < n ∧ isAnc bf c a = true then 1 else 0) c₀
          (nodup_goKids n bf j) hc₀mem
          (by
            show (if a < n ∧ isAnc bf c₀ a = true then 1 else 0) = 1
            rw [if_pos ⟨han, hanc0⟩])
          (fun c hc hne => by
            show (if a < n ∧ isAnc bf c a = true then 1 else 0) = 0
            rw [if_neg]
            rintro ⟨-, hanc2⟩
            rw [mem_goKids] at hc
            have hjb : j ≤ j * bf := Nat.le_mul_of_pos_right j hbf
            have hpc : (c - 1) / bf = j :=
              (parent_mem_iff bf j c hbf (by omega)).mpr ⟨hc.1, hc.2.1⟩
            exact anc_unique bf hbf j c c₀ hpc hp (by omega) h1 hne a hanc2 hanc0)
        rw [hsum]
        simp
      · rw [if_neg (by

          rintro ⟨-, h2⟩
          exact hanc h2)]
        have hsum : ((goKids n bf j).map
            (fun c => if a < n ∧ isAnc bf c a = true then 1 else 0)).sum = 0 := by
          refine List.sum_eq_zero ?_
          intro y hy
          obtain ⟨c, hc, rfl⟩ := List.mem_map.mp hy
          rw [if_neg]
          rintro ⟨-, hanc2⟩
          exact hanc (isAnc_trans bf c j (isAnc_of_kid n bf j c hbf hc) a hanc2)
        rw [hsum]
        simp
  · rw [if_neg (by omega)]
    have hbeq : (j == a) = false := by
      simp
      omega
    rw [hbeq]
    have hsum : ((goKids n bf j).map
        (fun c => if a < n ∧ isAnc bf c a = true then 1 else 0)).sum = 0 := by
      refine List.sum_eq_zero ?_
      intro y hy
      obtain ⟨c, hc, rfl⟩ := List.mem_map.mp hy
      show (if a < n ∧ isAnc bf c a = true then 1 else 0) = 0
      rw [if_neg (by omega)]
    rw [hsum]
    simp

lemma flatten_map_perm {α β : Type} (l : List α) (f g : α → List β)
    (h : ∀ c ∈ l, (f c).Perm (g c)) :
    ((l.map f).flatten).Perm ((l.map g).flatten) := by
  induction l with
  | nil => simp
  | cons x xs ih =>
    simp only [List.map_cons, List.flatten_cons]
    exact (h x (by simp)).append (ih (fun c hc => h c (by simp [hc])))

/-- The indices of the subtree rooted at `j` (with enough fuel) are exactly
the nodes whose BFS-layout parent chain passes through `j`, each once. -/
lemma subtreeIdx_perm (n bf : ℕ) (hbf : 1 ≤ bf) :
    ∀ fuel j, j < n → n - j ≤ fuel →
      (subtreeIdx (goKids n bf) fuel j).Perm
        ((List.range n).filter (fun i => isAnc bf j i)) := by
  intro fuel
  induction fuel with
  | zero =>
    intro j hj hf
    omega
  | succ fuel ih =>
    intro j hj hf
    have hstep : (subtreeIdx (goKids n bf) (fuel + 1) j).Perm
        (j :: ((goKids n bf j).map
          (fun c => (List.range n).filter (fun i => isAnc bf c i))).flatten) := by
      simp only [subtreeIdx]
      refine List.Perm.cons j ?_
      refine flatten_map_perm (goKids n bf j) _ _ ?_
      intro c hc
      have hjb : j ≤ j * bf := Nat.le_mul_of_pos_right j hbf
      rw [mem_goKids] at hc
      exact ih c (by omega) (by omega)
    exact hstep.trans (anc_filter_partition n bf j hbf hj).symm

lemma map_getD_range (hosts : List String) :
    (List.range hosts.length).map (fun i => hosts.getD i "") = hosts := by
  refine List.ext_getElem (by simp) ?_
  intro i h1 h2
  have hi : i < hosts.length := by simpa using h2
  simp [List.getD_eq_getElem?_getD, List.getElem?_eq_getElem hi]

lemma length_goKids_le (n bf j : ℕ) : (goKids n bf j).length ≤ bf := by
  unfold goKids
  rw [List.length_range']
  exact min_le_left _ _

lemma assemble_children_le (hosts pubs : List String) (n bf : ℕ) :
    ∀ fuel j, ∀ t ∈ allSubtrees (assemble hosts pubs (goKids n bf) fuel j),
      t.children.length ≤ bf := by
  intro fuel
  induction fuel with
  | zero =>
    intro j t ht
    simp only [assemble, allSubtrees_mk, List.map_nil, List.flatten_nil] at ht
    rw [List.mem_singleton] at ht
    subst ht
    simp [Tree.children]
  | succ fuel ih =>
    intro j t ht
    simp only [assemble, allSubtrees_mk, List.map_map] at ht
    rcases List.mem_cons.mp ht with rfl | h
    · simp only [Tree.children, List.length_map]
      exact length_goKids_le n bf j
    · rw [List.mem_flatten] at h
      obtain ⟨l2, hl2, hmem⟩ := h
      rw [List.mem_map] at hl2
      obtain ⟨c, hc, rfl⟩ := hl2
      exact ih c t hmem

/-- Claim C10: for a nonempty host list and branching factor `bf ≥ 1`,
constructTree (whose loop termination is witnessed by the well-founded
definition of `buildLoop`) returns a tree whose root is the first host, in
which the multiset of node names is exactly the host list (every host appears
exactly once), and in which every node has at most `bf` children. -/
theorem constructTree_spec (hosts pubs : List String) (bf : ℕ)
    (hne : hosts ≠ []) (hbf : 1 ≤ bf) :
    (constructTree hosts pubs bf).name = hosts.getD 0 "" ∧
    (treeNames (constructTree hosts pubs bf)).Perm hosts ∧
    ∀ t ∈ allSubtrees (constructTree hosts pubs bf),
      t.children.length ≤ bf := by
  have hn : 1 ≤ hosts.length := by
    cases hosts with
    | nil => exact absurd rfl hne
    | cons x xs => simp
  unfold constructTree
  rw [buildLoop_init hosts.length bf hbf hn]
  refine ⟨?_, ?_, ?_⟩
  · have hname : ∀ fuel j,
        (assemble hosts pubs (goKids hosts.length bf) fuel j).name =
          hosts.getD j "" := by
      intro fuel j
      cases fuel with
      | zero => simp [assemble, Tree.name]
      | succ f => simp [assemble, Tree.name]
    exact hname hosts.length 0
  · rw [treeNames_assemble hosts pubs (goKids hosts.length bf) hosts.length 0]
    have hperm := subtreeIdx_perm hosts.length bf hbf hosts.length 0
      (by omega) (by omega)
    have hfilter : (List.range hosts.length).filter
        (fun i => isAnc bf 0 i) = List.range hosts.length := by
      rw [List.filter_eq_self]
      intro a ha
      exact isAnc_zero_root bf a
    rw [hfilter] at hperm
    have := hperm.map (fun i => hosts.getD i "")
    rw [map_getD_range hosts] at this
    exact this
  · exact assemble_children_le hosts pubs hosts.length bf hosts.length 0

/-- Witness for C10: five hosts with branching factor 2 give the complete
binary BFS tree rooted at the first host. -/
theorem constructTree_spec_witness :
    (["a", "b", "c", "d", "e"] : List String) ≠ [] ∧
    (constructTree ["a", "b", "c", "d", "e"] ["ka", "kb", "kc", "kd", "ke"] 2).name
      = "a" ∧
    (treeNames (constructTree ["a", "b", "c", "d", "e"]
      ["ka", "kb", "kc", "kd", "ke"] 2)).Perm ["a", "b", "c", "d", "e"] ∧
    ∀ t ∈ allSubtrees (constructTree ["a", "b", "c", "d", "e"]
        ["ka", "kb", "kc", "kd", "ke"] 2),
      t.children.length ≤ 2 := by
  have h := constructTree_spec ["a", "b", "c", "d", "e"]
    ["ka", "kb", "kc", "kd", "ke"] 2 (by simp) (by omega)
  exact ⟨by simp, h.1, h.2.1, h.2.2⟩

end CothorityTree
